import Mathlib

/-!
Verification development for the `choice-learn` discrete-choice modeling
library, shallowly embedding `choice_learn/models/base_model.py`.

Tensors are modelled as (nested) lists of rationals; the automatic
differentiation / tensor substrate (exp, log, gradients, the keras
optimizers' internal updates) is abstracted as function parameters.
-/

namespace ChoiceLearn

/-! ## Optimizer selection (`ChoiceModel.__init__`, base_model.py lines 66-78) -/

/-- The keras optimizers that `ChoiceModel.__init__` may construct. -/
inductive KerasOptimizer where
  | adam
  | sgd
  | adamax
  deriving DecidableEq, Repr

/-- Result of the optimizer-dispatch in `ChoiceModel.__init__`:
which optimizer object was constructed (none on the L-BFGS branch, which
instead rebinds `self.fit`), whether `self.fit` was replaced by
`_fit_with_lbfgs`, and whether the fallback warning was printed. -/
structure OptimizerSetup where
  optimizer : Option KerasOptimizer
  fitReplacedByLbfgs : Bool
  warnedUnknown : Bool
  deriving DecidableEq, Repr

/-- Python's `str.lower()` on ASCII names, as used by `optimizer.lower()`. -/
def pyLower (s : String) : String := String.mk (s.data.map Char.toLower)

/-- Embedding of the `if/elif/else` chain on `optimizer.lower()` in
`ChoiceModel.__init__` (base_model.py lines 66-78). -/
def selectOptimizer (name : String) : OptimizerSetup :=
  if pyLower name = "adam" then
    ⟨some .adam, false, false⟩
  else if pyLower name = "sgd" then
    ⟨some .sgd, false, false⟩
  else if pyLower name = "adamax" then
    ⟨some .adamax, false, false⟩
  else if pyLower name = "lbfgs" ∨ pyLower name = "l-bfgs" then
    ⟨none, true, false⟩
  else
    ⟨some .adam, false, true⟩

/-! ## Epoch-loss aggregation (`ChoiceModel.fit`, base_model.py lines 305-315) -/

/-- `tf.reduce_mean` over a list of scalars. -/
def listMean (l : List ℚ) : ℚ := l.sum / l.length

/-- Embedding of the epoch-loss computation at the end of each epoch of
`ChoiceModel.fit` (base_model.py lines 305-315): when `batch_size != -1`,
`coefficients = concat(ones(n-1)*batch_size, [last_batch_size])` and the
epoch loss is `sum(losses * coefficients) / len(choice_dataset)`;
otherwise it is `reduce_mean(losses)`. -/
def epochLoss (batchSize : Int) (epochLosses : List ℚ) (lastBatchSize : ℚ)
    (nChoices : ℚ) : ℚ :=
  if batchSize ≠ -1 then
    let coefficients :=
      List.replicate (epochLosses.length - 1) (batchSize : ℚ) ++ [lastBatchSize]
    (List.zipWith (· * ·) epochLosses coefficients).sum / nChoices
  else
    listMean epochLosses

/-- The spec's wording: every batch except the last is weighted by the
requested batch size, the last by its true size, the weighted sum divided
by the dataset length; `batch_size = -1` means a plain mean. -/
def epochLossSpec (batchSize : Int) (epochLosses : List ℚ) (lastBatchSize : ℚ)
    (nChoices : ℚ) : ℚ :=
  if batchSize = -1 then
    listMean epochLosses
  else
    ((batchSize : ℚ) * epochLosses.dropLast.sum
      + lastBatchSize * epochLosses.getLastD 0) / nChoices

/-! ## L-BFGS adapter (`ChoiceModel._lbfgs_train_step` / `_fit_with_lbfgs`,
base_model.py lines 566-712)

A parameter tensor is modelled by the flat list of its entries: the
`tf.reshape` to and from the stored shape is the identity on entries, so
flattening is concatenation and unflattening is `tf.dynamic_partition`
followed by reassignment. -/

/-- `tf.dynamic_stitch(idx, weights)` with the contiguous-range stitch
indices built in `_lbfgs_train_step`: concatenation of the flattened
parameter tensors. -/
def flattenParams (ws : List (List ℚ)) : List ℚ := ws.flatten

/-- The partition indices `part` built by
`for i, shape in enumerate(shapes): part.extend([i] * n)`, with the
enumeration index starting at `k`. -/
def makePartitionFrom (k : Nat) : List (List ℚ) → List Nat
  | [] => []
  | w :: ws => List.replicate w.length k ++ makePartitionFrom (k + 1) ws

/-- The partition indices of the adapter (enumeration starts at 0). -/
def makePartition (ws : List (List ℚ)) : List Nat := makePartitionFrom 0 ws

/-- The entries of `data` routed by `tf.dynamic_partition` to output `i`:
those whose partition index is `i`, kept in order. -/
def extractClass (i : Nat) (data : List ℚ) (part : List Nat) : List ℚ :=
  ((data.zip part).filter (fun xp => xp.2 == i)).map Prod.fst

/-- `tf.dynamic_partition(data, part, n)`. -/
def dynamicPartition (data : List ℚ) (part : List Nat) (n : Nat) : List (List ℚ) :=
  (List.range n).map (fun i => extractClass i data part)

/-- `assign_new_model_parameters(params_1d)`: partition the flat vector
with the adapter's partition indices and assign each piece, reshaped, to
the corresponding parameter tensor; the new parameter set is returned. -/
def assignNewModelParameters (ws : List (List ℚ)) (params1d : List ℚ) : List (List ℚ) :=
  dynamicPartition params1d (makePartition ws) ws.length

/-- The last step of `_fit_with_lbfgs`: after `lbfgs_minimize` returns,
`assign_new_model_parameters(results.position)` is called once more, so
the model's live parameters are the unflattened `results.position`. -/
def lbfgsFinalWeights (ws : List (List ℚ)) (resultsPosition : List ℚ) : List (List ℚ) :=
  assignNewModelParameters ws resultsPosition

/-! ## Availability-masked softmax and latent-class mixture
(`BaseLatentClassModel`, base_model.py lines 715-908)

The exponential of the tensor substrate is abstracted as a parameter
`e : ℚ → ℚ`. -/

/-- Modelled from the spec: `tf_ops.softmax_with_availabilities` lives in
`choice_learn/tf_ops.py`, which is not under src/. Per spec section 4.1: the
row-wise maximum utility over the available entries is subtracted before
exponentiating, entries of unavailable items are zeroed, and when
`normalize_exit` is set an implicit outside option of utility 0 joins the
denominator. Returns one probability row. -/
def softmaxWithAvailabilities (e : ℚ → ℚ) (u a : List ℚ) (normalizeExit : Bool) :
    List ℚ :=
  let m := ((u.zip a).filterMap (fun p => if p.2 ≠ 0 then some p.1 else none)).foldr max 0
  let exps := List.zipWith (fun uj aj => aj * e (uj - m)) u a
  let denom := exps.sum + (if normalizeExit then e (0 - m) else 0)
  exps.map (· / denom)

/-- The availability-masked softmax applied to a `(batch, items)` utility
matrix, row by row (`axis=-1`). -/
def matrixSoftmaxAvail (e : ℚ → ℚ) (u avail : List (List ℚ)) (normalizeExit : Bool) :
    List (List ℚ) :=
  List.zipWith (fun ur ar => softmaxWithAvailabilities e ur ar normalizeExit) u avail

/-- The latent-class prior derivation of `BaseLatentClassModel.batch_predict`
(base_model.py lines 831-834): `concat([[1.0], exp(latent_logits)])`
normalized by its sum — a softmax-like normalization anchored at a fixed
first-class weight `exp(0) = 1`. -/
def latentProbabilitiesFromLogits (e : ℚ → ℚ) (latentLogits : List ℚ) : List ℚ :=
  let lp := 1 :: latentLogits.map e
  lp.map (· / lp.sum)

/-- Scalar multiplication of a `(batch, items)` matrix. -/
def matScale (c : ℚ) (M : List (List ℚ)) : List (List ℚ) :=
  M.map (fun row => row.map (fun x => c * x))

/-- Scalar multiplication of a `(classes, batch, items)` tensor. -/
def tensorScale (c : ℚ) (T : List (List (List ℚ))) : List (List (List ℚ)) :=
  T.map (matScale c)

/-- Elementwise sum of two matrices of equal shape. -/
def matAdd (A B : List (List ℚ)) : List (List ℚ) :=
  List.zipWith (List.zipWith (· + ·)) A B

/-- Elementwise sum of two `(classes, batch, items)` tensors. -/
def tensorAdd (S T : List (List (List ℚ))) : List (List (List ℚ)) :=
  List.zipWith matAdd S T

/-- `tf.reduce_sum(ts, axis=0)` over a list of equal-shape tensors. -/
def tensorListSum : List (List (List (List ℚ))) → List (List (List ℚ))
  | [] => []
  | t :: ts => ts.foldl tensorAdd t

/-- `tf.reduce_sum(ms, axis=0)` over a list of equal-shape matrices. -/
def matListSum : List (List (List ℚ)) → List (List ℚ)
  | [] => []
  | m :: ms => ms.foldl matAdd m

/-- Embedding of the probability computation of
`BaseLatentClassModel.batch_predict` (base_model.py lines 823-846) as the
source performs it: inside `for i, class_utilities in enumerate(utilities)`
the softmax is applied to `utilities` — the whole list of per-class
utility matrices, a `(classes, batch, items)` stack — rather than to
`class_utilities`, and the `(classes, batch, items)` result is scaled
whole by `latent_probabilities[i]`; `tf.reduce_sum(probabilities, axis=0)`
then sums those scaled stacks. (The source also reads
`self.normalize_non_buy`, an attribute `BaseLatentClassModel.__init__`
never sets — it sets `add_exit_choice` — so the call raises
AttributeError at run time; the flag is kept as the parameter
`normalizeExit` here.) -/
def mixtureBatchPredictProbas (e : ℚ → ℚ) (utilities : List (List (List ℚ)))
    (avail : List (List ℚ)) (latentLogits : List ℚ) (normalizeExit : Bool) :
    List (List (List ℚ)) :=
  let latentProbabilities := latentProbabilitiesFromLogits e latentLogits
  let classProbabilities :=
    utilities.map (fun u => matrixSoftmaxAvail e u avail normalizeExit)
  let probabilities := (List.range utilities.length).map
    (fun i => tensorScale (latentProbabilities.getD i 0) classProbabilities)
  tensorListSum probabilities

/-- The claim's (and spec section 4.6's) intended mixture probabilities: the
prior-weighted sum over classes of each class's own availability-masked
softmax, a `(batch, items)` matrix. -/
def mixtureProbasSpec (e : ℚ → ℚ) (utilities : List (List (List ℚ)))
    (avail : List (List ℚ)) (latentLogits : List ℚ) (normalizeExit : Bool) :
    List (List ℚ) :=
  matListSum (List.zipWith
    (fun p u => matScale p (matrixSoftmaxAvail e u avail normalizeExit))
    (latentProbabilitiesFromLogits e latentLogits) utilities)

/-! ## Expectation-Maximization (`BaseLatentClassModel.fit`, `_expectation`,
`_maximization`, `_em_fit`, base_model.py lines 910-941 and 1198-1275) -/

/-- The keyword parameters accepted by
`def _em_fit(self, dataset, verbose=0)` (base_model.py line 1243). -/
def emFitKeywordParams : List String := ["dataset", "verbose"]

/-- The keyword arguments that `BaseLatentClassModel.fit` passes in
`self._em_fit(dataset=dataset, sample_weight=sample_weight, verbose=verbose)`
(base_model.py line 930). -/
def emFitCallKeywords : List String := ["dataset", "sample_weight", "verbose"]

/-- Which fit routine a `BaseLatentClassModel.fit` call returns from. -/
inductive LatentFitOutcome where
  | emHistories
  | lbfgsHistory
  | normalHistory
  deriving DecidableEq, Repr

/-- Embedding of the dispatch in `BaseLatentClassModel.fit`
(base_model.py lines 927-940), including Python's calling convention for
the EM branch: passing a keyword argument that the callee's signature
does not accept raises TypeError before the callee body runs. -/
def latentClassFitDispatch (fitMethod optimizer : String) :
    Except String LatentFitOutcome :=
  if pyLower fitMethod = "em" then
    if emFitCallKeywords.all (fun k => emFitKeywordParams.contains k) then
      Except.ok .emHistories
    else
      Except.error "TypeError: _em_fit() got an unexpected keyword argument"
  else if pyLower fitMethod = "mle" then
    if pyLower optimizer = "lbfgs" ∨ pyLower optimizer = "l-bfgs" then
      Except.ok .lbfgsHistory
    else
      Except.ok .normalHistory
  else
    Except.error ("Fit method not implemented: " ++ fitMethod)

/-- The zip step of `BaseLatentClassModel._expectation` (base_model.py
lines 1202-1209): `zip(self.latent_logits, predicted_probas)` pairs each
entry of `latent_logits` with one model's vector of predicted
probabilities of the observed choices, truncating to the shorter list —
on the first EM iteration `latent_logits` has `n_latent_classes - 1`
entries, so the last model is dropped. -/
def emWeightedChosenProbas (latentLogits : List ℚ) (chosenProbas : List (List ℚ)) :
    List (List ℚ) :=
  List.zipWith (fun latent proba => proba.map (fun p => latent * p))
    latentLogits chosenProbas

/-- `np.stack(predicted_probas, axis=1)`: one row per choice instance,
one column per zipped class. -/
def emStack (nChoices : Nat) (w : List (List ℚ)) : List (List ℚ) :=
  (List.range nChoices).map (fun i => w.map (fun col => col.getD i 0))

/-- Embedding of `BaseLatentClassModel._expectation` (base_model.py lines
1198-1216): weight each model's probability-of-observed-choice vector by
the zipped `latent_logits` entry, stack per instance, add `1e-10`, and
return the row-normalized responsibilities together with
`sum(log(sum(raw, axis=1)))` (the logarithm of the substrate is the
parameter `lg`). -/
def emExpectation (lg : ℚ → ℚ) (nChoices : Nat) (latentLogits : List ℚ)
    (chosenProbas : List (List ℚ)) : List (List ℚ) × ℚ :=
  let raw := (emStack nChoices (emWeightedChosenProbas latentLogits chosenProbas)).map
    (fun row => row.map (fun p => p + 1 / 10000000000))
  (raw.map (fun row => row.map (fun p => p / row.sum)),
   (raw.map (fun row => lg row.sum)).sum)

/-- `np.sum(weights, axis=0)`: column sums of the responsibility matrix
(one row per instance, one column per class). -/
def colSums : List (List ℚ) → List ℚ
  | [] => []
  | r :: rs => rs.foldl (List.zipWith (· + ·)) r

/-- The prior update of `BaseLatentClassModel._maximization`
(base_model.py lines 1238-1241): the responsibility column sums,
normalized to sum to 1. `_em_fit` assigns this length-`n_latent_classes`
probability vector directly into `self.latent_logits`. -/
def maximizationLatentProbas (weights : List (List ℚ)) : List ℚ :=
  let latentProbas := colSums weights
  latentProbas.map (· / latentProbas.sum)

/-- A float vector in which NaN is representable: `none` models NaN
(which `np.isnan` detects), `some q` an ordinary value. -/
def hasNanVector (v : List (Option ℚ)) : Bool := v.any (fun x => x.isNone)

/-- The mutable state of `_em_fit`: the live `latent_logits` and the two
append-only histories returned at the end. -/
structure EmState where
  latentLogits : List (Option ℚ)
  histLogits : List (List (Option ℚ))
  histLoss : List ℚ
  deriving DecidableEq, Repr

/-- Embedding of the loop of `BaseLatentClassModel._em_fit`
(base_model.py lines 1267-1275). Per iteration `i` the code runs the
E-step and the M-step (abstracted as the iteration-indexed streams
`maximization` and `losses`, since they refit every sub-model through the
tensor substrate), assigns the updated prior into `self.latent_logits`,
appends it and the loss to the histories, and only then checks
`np.isnan` on the freshly assigned `latent_logits`, breaking out of the
loop when a NaN is present. -/
def emFitLoop (maximization : Nat → List (Option ℚ)) (losses : Nat → ℚ) :
    Nat → Nat → EmState → EmState
  | _, 0, s => s
  | i, fuel + 1, s =>
    let newLogits := maximization i
    let s' : EmState :=
      ⟨newLogits, s.histLogits ++ [newLogits], s.histLoss ++ [losses i]⟩
    if hasNanVector newLogits then s'
    else emFitLoop maximization losses (i + 1) fuel s'

/-- `_em_fit`'s loop entered at iteration 0 with the full epoch budget. -/
def emFit (maximization : Nat → List (Option ℚ)) (losses : Nat → ℚ)
    (epochs : Nat) (s0 : EmState) : EmState :=
  emFitLoop maximization losses 0 epochs s0

/-! ## The epoch loop of `ChoiceModel.fit` (base_model.py lines 226-369)

The per-epoch work (callbacks, batch loop, optional validation pass) is
abstracted as state transformers on an arbitrary state type `σ`; the
`stop_training` flag is read off the state by `stopFlag`. -/

/-- The composition of all epoch phases in source order: `on_epoch_begin`,
the training batch loop, the validation pass (with its batch callbacks),
and `on_epoch_end` (base_model.py lines 227-359). -/
def epochBody {σ : Type} (onEpochBegin batchLoop validationPass onEpochEnd : Nat → σ → σ)
    (e : Nat) (s : σ) : σ :=
  onEpochEnd e (validationPass e (batchLoop e (onEpochBegin e s)))

/-- `m` full epoch bodies applied in order starting from epoch `e`. -/
def applyEpochs {σ : Type} (body : Nat → σ → σ) : Nat → σ → Nat → σ
  | _, s, 0 => s
  | e, s, m + 1 => applyEpochs body (e + 1) (body e s) m

/-- The epoch loop of `ChoiceModel.fit` (base_model.py lines 226-362):
run the whole epoch body, then — once per epoch, after `on_epoch_end` —
test `self.stop_training` and break out of the loop when it is set.
Returns the final state and the number of completed epochs. -/
def fitEpochLoop {σ : Type} (stopFlag : σ → Bool) (body : Nat → σ → σ) :
    Nat → Nat → σ → σ × Nat
  | _, 0, s => (s, 0)
  | e, n + 1, s =>
    let s' := body e s
    if stopFlag s' then (s', 1)
    else
      let r := fitEpochLoop stopFlag body (e + 1) n s'
      (r.1, r.2 + 1)

/-- `ChoiceModel.fit`'s epoch loop entered at epoch 0. -/
def fitRun {σ : Type} (stopFlag : σ → Bool)
    (onEpochBegin batchLoop validationPass onEpochEnd : Nat → σ → σ)
    (epochs : Nat) (s0 : σ) : σ × Nat :=
  fitEpochLoop stopFlag (epochBody onEpochBegin batchLoop validationPass onEpochEnd)
    0 epochs s0

/-! ## Inference and training steps of `ChoiceModel`
(base_model.py lines 122-179, 371-436, 489-564)

The model state is its parameter tensors (`self.weights`) plus the
optimizer's internal slot variables; `compute_batch_utility`, the losses,
the gradient tape and the optimizer update rule are abstracted as
function parameters. Every method is embedded in state-passing style,
statement for statement: a method body writes the state only where the
source assigns to `self` or calls the optimizer. -/

/-- Parameter tensors and optimizer slot state of a `ChoiceModel`. -/
structure ModelState where
  weights : List (List ℚ)
  optimizerSlots : List (List ℚ)
  deriving DecidableEq, Repr

/-- One batch of a ChoiceDataset. -/
structure ChoiceBatch where
  sharedFeatures : List (List ℚ)
  itemsFeatures : List (List (List ℚ))
  availableItems : List (List ℚ)
  choices : List Nat
  deriving DecidableEq, Repr

/-- Embedding of `ChoiceModel.batch_predict` (base_model.py lines
371-436): compute utilities, availability-masked probabilities, and the
two losses; the body contains no assignment to `self`, so the state
passes through unchanged. -/
def batchPredict (e : ℚ → ℚ)
    (utilityFn : List (List ℚ) → ChoiceBatch → List (List ℚ))
    (ccLoss nllLoss : List (List ℚ) → List Nat → Option (List ℚ) → ℚ)
    (normalizeExit : Bool) (m : ModelState) (b : ChoiceBatch)
    (sampleWeight : Option (List ℚ)) :
    ModelState × (ℚ × ℚ × List (List ℚ)) :=
  let utilities := utilityFn m.weights b
  let probabilities := matrixSoftmaxAvail e utilities b.availableItems normalizeExit
  (m, (ccLoss probabilities b.choices sampleWeight,
       nllLoss probabilities b.choices sampleWeight,
       probabilities))

/-- Embedding of `ChoiceModel.predict_probas` (base_model.py lines
489-519): iterate `batch_predict` over the dataset's batches, stacking
the probability matrices, threading the model state through. -/
def predictProbasRun (e : ℚ → ℚ)
    (utilityFn : List (List ℚ) → ChoiceBatch → List (List ℚ))
    (ccLoss nllLoss : List (List ℚ) → List Nat → Option (List ℚ) → ℚ)
    (normalizeExit : Bool) (m : ModelState) (batches : List ChoiceBatch) :
    ModelState × List (List (List ℚ)) :=
  batches.foldl (fun acc b =>
    let r := batchPredict e utilityFn ccLoss nllLoss normalizeExit acc.1 b none
    (r.1, acc.2 ++ [r.2.2.2])) (m, [])

/-- Embedding of `ChoiceModel.evaluate` (base_model.py lines 521-564):
iterate `batch_predict`, collecting `NegativeLogLikelihood` in mode
"eval" and `optimized_loss` in mode "optim", threading the state. -/
def evaluateRun (e : ℚ → ℚ)
    (utilityFn : List (List ℚ) → ChoiceBatch → List (List ℚ))
    (ccLoss nllLoss : List (List ℚ) → List Nat → Option (List ℚ) → ℚ)
    (normalizeExit : Bool) (m : ModelState) (batches : List ChoiceBatch)
    (sampleWeight : Option (List ℚ)) (mode : String) :
    ModelState × List ℚ :=
  batches.foldl (fun acc b =>
    let r := batchPredict e utilityFn ccLoss nllLoss normalizeExit acc.1 b sampleWeight
    (r.1, acc.2 ++ [if mode = "eval" then r.2.2.1 else r.2.1])) (m, [])

/-- Embedding of `ChoiceModel.train_step` (base_model.py lines 122-179):
forward pass, loss, `tape.gradient` (abstracted as `gradientFn`), then
`self.optimizer.apply_gradients(zip(grads, self.weights))` (abstracted as
`applyGradients`, mapping slot state, gradients and weights to updated
slot state and weights) — the only write to parameter state. -/
def trainStep (e : ℚ → ℚ)
    (utilityFn : List (List ℚ) → ChoiceBatch → List (List ℚ))
    (ccLoss : List (List ℚ) → List Nat → Option (List ℚ) → ℚ)
    (gradientFn : List (List ℚ) → ChoiceBatch → Option (List ℚ) → List (List ℚ))
    (applyGradients :
      List (List ℚ) → List (List ℚ) → List (List ℚ) → List (List ℚ) × List (List ℚ))
    (normalizeExit : Bool) (m : ModelState) (b : ChoiceBatch)
    (sampleWeight : Option (List ℚ)) : ModelState × ℚ :=
  let utilities := utilityFn m.weights b
  let probabilities := matrixSoftmaxAvail e utilities b.availableItems normalizeExit
  let negLoglikelihood := ccLoss probabilities b.choices sampleWeight
  let grads := gradientFn m.weights b sampleWeight
  let updated := applyGradients m.optimizerSlots grads m.weights
  (⟨updated.2, updated.1⟩, negLoglikelihood)

/-! ## Lemmas and claim theorems -/

lemma zipWith_mul_replicate_append_sum_helper (l : List ℚ) (c last : ℚ) (hl : l ≠ []) :
    (List.zipWith (· * ·) l (List.replicate (l.length - 1) c ++ [last])).sum
      = c * l.dropLast.sum + last * l.getLastD 0 := by
  induction l with
  | nil => exact absurd rfl hl
  | cons x xs ih =>
    cases xs with
    | nil => simp [mul_comm]
    | cons y ys =>
      have ihy := ih (by simp)
      simp only [List.length_cons, Nat.add_sub_cancel] at ihy
      simp only [List.length_cons, Nat.add_sub_cancel, List.replicate_succ,
        List.cons_append, List.zipWith_cons_cons, List.sum_cons, ihy]
      simp only [List.dropLast_cons₂, List.sum_cons, List.getLastD_cons]
      ring

lemma extractClass_append_same (i : Nat) (w d : List ℚ) (p : List Nat) :
    extractClass i (w ++ d) (List.replicate w.length i ++ p)
      = w ++ extractClass i d p := by
  induction w with
  | nil => simp
  | cons x xs ih =>
    simp only [List.length_cons, List.replicate_succ, List.cons_append,
      extractClass, List.zip_cons_cons, List.filter_cons] at ih ⊢
    simp [ih]

lemma extractClass_append_diff (i j : Nat) (hij : j ≠ i) (w d : List ℚ) (p : List Nat) :
    extractClass i (w ++ d) (List.replicate w.length j ++ p) = extractClass i d p := by
  induction w with
  | nil => simp
  | cons x xs ih =>
    simp only [List.length_cons, List.replicate_succ, List.cons_append,
      extractClass, List.zip_cons_cons, List.filter_cons] at ih ⊢
    simp [ih, hij]

lemma extractClass_append_same' (i : Nat) (w d : List ℚ) (p : List Nat) (n : Nat)
    (hn : n = w.length) :
    extractClass i (w ++ d) (List.replicate n i ++ p) = w ++ extractClass i d p := by
  subst hn
  exact extractClass_append_same i w d p

lemma extractClass_append_diff' (i j : Nat) (hij : j ≠ i) (w d : List ℚ) (p : List Nat)
    (n : Nat) (hn : n = w.length) :
    extractClass i (w ++ d) (List.replicate n j ++ p) = extractClass i d p := by
  subst hn
  exact extractClass_append_diff i j hij w d p

lemma extractClass_shift (i : Nat) (d : List ℚ) (part : List Nat) :
    extractClass (i + 1) d (part.map (· + 1)) = extractClass i d part := by
  induction d generalizing part with
  | nil => simp [extractClass]
  | cons x xs ih =>
    cases part with
    | nil => simp [extractClass]
    | cons p ps =>
      simp only [List.map_cons, extractClass, List.zip_cons_cons, List.filter_cons] at ih ⊢
      by_cases hp : p = i
      · simp [hp, ih]
      · have : ¬(p + 1 = i + 1) := by omega
        simp [hp, this, ih]

lemma makePartitionFrom_succ (k : Nat) (ws : List (List ℚ)) :
    makePartitionFrom (k + 1) ws = (makePartitionFrom k ws).map (· + 1) := by
  induction ws generalizing k with
  | nil => simp [makePartitionFrom]
  | cons w ws ih => simp [makePartitionFrom, ih, List.map_replicate]

lemma mem_makePartitionFrom {x k : Nat} {ws : List (List ℚ)}
    (hx : x ∈ makePartitionFrom k ws) : k ≤ x := by
  induction ws generalizing k with
  | nil => simp [makePartitionFrom] at hx
  | cons w ws ih =>
    simp only [makePartitionFrom, List.mem_append, List.mem_replicate] at hx
    rcases hx with ⟨-, rfl⟩ | hx
    · exact le_refl x
    · exact Nat.le_of_succ_le (ih hx)

lemma extractClass_makePartitionFrom_lt {i k : Nat} (hik : i < k)
    (d : List ℚ) (ws : List (List ℚ)) :
    extractClass i d (makePartitionFrom k ws) = [] := by
  unfold extractClass
  have hnil : List.filter (fun xp => xp.2 == i) (d.zip (makePartitionFrom k ws)) = [] := by
    rw [List.filter_eq_nil_iff]
    intro a ha
    have hmem := (List.of_mem_zip ha).2
    have hk := mem_makePartitionFrom hmem
    simp only [beq_iff_eq]
    omega
  rw [hnil]
  rfl

lemma dynamicPartition_flattenParams (ws : List (List ℚ)) :
    dynamicPartition (flattenParams ws) (makePartition ws) ws.length = ws := by
  induction ws with
  | nil => simp [dynamicPartition, flattenParams, makePartition, makePartitionFrom]
  | cons w ws ih =>
    unfold dynamicPartition flattenParams makePartition makePartitionFrom
    rw [List.length_cons, List.range_succ_eq_map, List.map_cons]
    congr 1
    · rw [List.flatten_cons, extractClass_append_same,
        extractClass_makePartitionFrom_lt (by omega), List.append_nil]
    · rw [List.map_map]
      have hfun : ∀ i ∈ List.range ws.length,
          ((fun i => extractClass i (w :: ws).flatten
              (List.replicate w.length 0 ++ makePartitionFrom (0 + 1) ws)) ∘ Nat.succ) i
            = extractClass i ws.flatten (makePartitionFrom 0 ws) := by
        intro i _
        simp only [Function.comp_apply, List.flatten_cons, Nat.succ_eq_add_one]
        rw [extractClass_append_diff _ _ (by omega), makePartitionFrom_succ,
          extractClass_shift]
      rw [List.map_congr_left hfun]
      exact ih

lemma flattenParams_dynamicPartition (ws : List (List ℚ)) (p : List ℚ)
    (hp : p.length = (flattenParams ws).length) :
    flattenParams (assignNewModelParameters ws p) = p := by
  induction ws generalizing p with
  | nil =>
    have hpnil : p = [] := by
      simpa [flattenParams] using hp
    simp [hpnil, assignNewModelParameters, dynamicPartition, flattenParams]
  | cons w ws ih =>
    have hp' : p.length = w.length + (flattenParams ws).length := by
      simpa [flattenParams, List.flatten_cons, List.length_append] using hp
    have hlen : w.length ≤ p.length := by omega
    have hsplit : p = p.take w.length ++ p.drop w.length := (List.take_append_drop _ p).symm
    have htake : (p.take w.length).length = w.length := by
      rw [List.length_take]
      omega
    have hdrop : (p.drop w.length).length = (flattenParams ws).length := by
      rw [List.length_drop, hp']
      omega
    unfold assignNewModelParameters dynamicPartition makePartition makePartitionFrom
    rw [List.length_cons, List.range_succ_eq_map, List.map_cons]
    unfold flattenParams
    rw [List.flatten_cons]
    have hhead : extractClass 0 p (List.replicate w.length 0 ++ makePartitionFrom (0 + 1) ws)
        = p.take w.length := by
      conv_lhs => rw [hsplit]
      rw [extractClass_append_same' _ _ _ _ _ htake.symm,
        extractClass_makePartitionFrom_lt (by omega), List.append_nil]
    have htail : ∀ i ∈ List.range ws.length,
        ((fun i => extractClass i p
            (List.replicate w.length 0 ++ makePartitionFrom (0 + 1) ws)) ∘ Nat.succ) i
          = extractClass i (p.drop w.length) (makePartitionFrom 0 ws) := by
      intro i _
      simp only [Function.comp_apply, Nat.succ_eq_add_one]
      conv_lhs => rw [hsplit]
      rw [extractClass_append_diff' _ _ (by omega) _ _ _ _ htake.symm,
        makePartitionFrom_succ, extractClass_shift]
    rw [hhead, List.map_map, List.map_congr_left htail]
    have hrec := ih (p.drop w.length) hdrop
    unfold assignNewModelParameters dynamicPartition makePartition flattenParams at hrec
    rw [hrec]
    exact (List.take_append_drop _ p)

lemma sum_map_div (l : List ℚ) (c : ℚ) : (l.map (· / c)).sum = l.sum / c := by
  induction l with
  | nil => simp
  | cons x xs ih => simp [ih, add_div]

lemma map_getD_range (l : List ℚ) :
    (List.range l.length).map (fun i => l.getD i 0) = l := by
  induction l with
  | nil => simp
  | cons x xs ih =>
    rw [List.length_cons, List.range_succ_eq_map, List.map_cons, List.map_map]
    have h1 : List.map ((fun i => (x :: xs).getD i 0) ∘ Nat.succ) (List.range xs.length)
        = List.map (fun i => xs.getD i 0) (List.range xs.length) :=
      List.map_congr_left (fun i _ => by simp)
    rw [h1, ih]
    rfl

lemma row_scale_add (a b : ℚ) (r : List ℚ) :
    List.zipWith (· + ·) (r.map (fun x => a * x)) (r.map (fun x => b * x))
      = r.map (fun x => (a + b) * x) := by
  induction r with
  | nil => simp
  | cons x xs ih => simp [ih]; ring

lemma matAdd_matScale (a b : ℚ) (M : List (List ℚ)) :
    matAdd (matScale a M) (matScale b M) = matScale (a + b) M := by
  induction M with
  | nil => simp [matAdd, matScale]
  | cons r rs ih =>
    simp only [matAdd, matScale, List.map_cons, List.zipWith_cons_cons] at ih ⊢
    rw [row_scale_add, ih]

lemma tensorAdd_tensorScale (a b : ℚ) (T : List (List (List ℚ))) :
    tensorAdd (tensorScale a T) (tensorScale b T) = tensorScale (a + b) T := by
  induction T with
  | nil => simp [tensorAdd, tensorScale]
  | cons M Ms ih =>
    simp only [tensorAdd, tensorScale, List.map_cons, List.zipWith_cons_cons] at ih ⊢
    rw [matAdd_matScale, ih]

lemma foldl_tensorAdd_tensorScale (T : List (List (List ℚ))) (a : ℚ) (cs : List ℚ) :
    (cs.map (fun c => tensorScale c T)).foldl tensorAdd (tensorScale a T)
      = tensorScale (a + cs.sum) T := by
  induction cs generalizing a with
  | nil => simp
  | cons c cs ih =>
    simp only [List.map_cons, List.foldl_cons, List.sum_cons]
    rw [tensorAdd_tensorScale, ih, add_assoc]

lemma matScale_one (M : List (List ℚ)) : matScale 1 M = M := by
  simp [matScale]

lemma tensorScale_one (T : List (List (List ℚ))) : tensorScale 1 T = T := by
  induction T with
  | nil => simp [tensorScale]
  | cons M Ms ih =>
    simp only [tensorScale, List.map_cons] at ih ⊢
    rw [matScale_one, ih]

/-- C3: the names "Adam", "SGD", "Adamax" (case-insensitive) select the
corresponding keras optimizer, and an unrecognized optimizer name does not
raise: `ChoiceModel.__init__` falls back to the default Adam optimizer and
prints a warning (the embedding is a total function: no error outcome
exists on any branch). -/
theorem selectOptimizer_spec (name : String) :
    (pyLower name = "adam" → selectOptimizer name = ⟨some .adam, false, false⟩)
    ∧ (pyLower name = "sgd" → selectOptimizer name = ⟨some .sgd, false, false⟩)
    ∧ (pyLower name = "adamax" → selectOptimizer name = ⟨some .adamax, false, false⟩)
    ∧ (pyLower name ∉ ["adam", "sgd", "adamax", "lbfgs", "l-bfgs"] →
        selectOptimizer name = ⟨some .adam, false, true⟩) := by
  refine ⟨?_, ?_, ?_, ?_⟩ <;> intro h
  · rw [selectOptimizer, h]; decide
  · rw [selectOptimizer, h]; decide
  · rw [selectOptimizer, h]; decide
  · simp only [List.mem_cons, List.not_mem_nil, or_false, not_or] at h
    obtain ⟨h1, h2, h3, h4, h5⟩ := h
    simp [selectOptimizer, h1, h2, h3, h4, h5]

/-- Witness for C3 at concrete optimizer names, including the fallback
branch for the unrecognized name "RMSProp". -/
theorem selectOptimizer_spec_witness :
    selectOptimizer "AdaM" = ⟨some .adam, false, false⟩
    ∧ selectOptimizer "SGD" = ⟨some .sgd, false, false⟩
    ∧ selectOptimizer "AdamaX" = ⟨some .adamax, false, false⟩
    ∧ selectOptimizer "RMSProp" = ⟨some .adam, false, true⟩ :=
  ⟨(selectOptimizer_spec "AdaM").1 (by decide),
   (selectOptimizer_spec "SGD").2.1 (by decide),
   (selectOptimizer_spec "AdamaX").2.2.1 (by decide),
   (selectOptimizer_spec "RMSProp").2.2.2 (by decide)⟩

/-- C4: for a nonempty list of batch losses, the epoch loss recorded by
`ChoiceModel.fit` equals the batch-size-weighted mean of the batch losses
(all batches but the last weighted by the requested batch size, the last
by its true size, divided by the dataset length), and the plain mean when
`batch_size = -1`. -/
theorem epochLoss_eq_spec (batchSize : Int) (losses : List ℚ) (lastSize n : ℚ)
    (hl : losses ≠ []) :
    epochLoss batchSize losses lastSize n = epochLossSpec batchSize losses lastSize n := by
  by_cases hb : batchSize = -1
  · simp [epochLoss, epochLossSpec, hb]
  · simp [epochLoss, epochLossSpec, hb,
      zipWith_mul_replicate_append_sum_helper losses _ _ hl]

/-- Witness for C4: three batches of requested size 2 with a short last
batch of size 1, over a dataset of 5 choices. -/
theorem epochLoss_eq_spec_witness :
    ([(2 : ℚ), 3, 4] ≠ ([] : List ℚ))
    ∧ epochLoss 2 [(2 : ℚ), 3, 4] 1 5 = epochLossSpec 2 [(2 : ℚ), 3, 4] 1 5 :=
  ⟨by decide, epochLoss_eq_spec 2 [(2 : ℚ), 3, 4] 1 5 (by decide)⟩

/-- C5: flattening the named parameter tensors into one vector with the
adapter's stitch/partition indices and unflattening it back reproduces
every parameter tensor exactly; and for any final minimizer position of
matching total length, the one extra `assign_new_model_parameters` call
at the end of `_fit_with_lbfgs` leaves the model's live parameters equal
(under flattening) to the minimizer's reported position. -/
theorem lbfgs_flatten_roundtrip (ws : List (List ℚ)) (position : List ℚ) :
    assignNewModelParameters ws (flattenParams ws) = ws
    ∧ (position.length = (flattenParams ws).length →
        flattenParams (lbfgsFinalWeights ws position) = position) := by
  constructor
  · exact dynamicPartition_flattenParams ws
  · intro hlen
    exact flattenParams_dynamicPartition ws position hlen

/-- Witness for C5: two tensors `[1, 2]` and `[3]` flatten to `[1, 2, 3]`
and round-trip; the minimizer position `[7, 8, 9]` is re-assigned and the
live parameters flatten back to it. -/
theorem lbfgs_flatten_roundtrip_witness :
    assignNewModelParameters [[(1 : ℚ), 2], [3]] (flattenParams [[(1 : ℚ), 2], [3]])
        = [[(1 : ℚ), 2], [3]]
    ∧ flattenParams (lbfgsFinalWeights [[(1 : ℚ), 2], [3]] [7, 8, 9]) = [7, 8, 9] :=
  ⟨(lbfgs_flatten_roundtrip [[(1 : ℚ), 2], [3]] [7, 8, 9]).1,
   (lbfgs_flatten_roundtrip [[(1 : ℚ), 2], [3]] [7, 8, 9]).2 (by decide)⟩

lemma map_range_getD_comp {β : Type} (l : List ℚ) (f : ℚ → β) :
    (List.range l.length).map (fun i => f (l.getD i 0)) = l.map f := by
  induction l with
  | nil => simp
  | cons x xs ih =>
    rw [List.length_cons, List.range_succ_eq_map, List.map_cons, List.map_map]
    have h1 : List.map ((fun i => f ((x :: xs).getD i 0)) ∘ Nat.succ)
        (List.range xs.length) = List.map (fun i => f (xs.getD i 0)) (List.range xs.length) :=
      List.map_congr_left (fun i _ => by simp)
    rw [h1, ih]
    rfl

lemma tensorListSum_map_scale (T : List (List (List ℚ))) (c0 : ℚ) (cs : List ℚ) :
    tensorListSum ((c0 :: cs).map (fun c => tensorScale c T))
      = tensorScale (c0 + cs.sum) T := by
  simp only [List.map_cons, tensorListSum]
  exact foldl_tensorAdd_tensorScale T c0 cs

lemma latentProbabilities_sum_one (e : ℚ → ℚ) (latentLogits : List ℚ)
    (hsum : ((1 : ℚ) :: latentLogits.map e).sum ≠ 0) :
    (latentProbabilitiesFromLogits e latentLogits).sum = 1 := by
  unfold latentProbabilitiesFromLogits
  rw [sum_map_div, div_self hsum]

/-- C1: refuted as stated — `BaseLatentClassModel.batch_predict` does not
return the prior-weighted mixture. Inside its class loop the softmax is
applied to the whole stacked `utilities` list instead of
`class_utilities`, so each iteration scales the same
`(classes, batch, items)` per-class softmax stack by
`latent_probabilities[i]`, and the final `reduce_sum` over iterations
makes the prior weights cancel (they sum to 1): the returned object is
the unweighted per-class softmax stack — a `(classes, batch, items)`
tensor, not the `(batch, items)` prior-weighted sum of the claim (the
code additionally reads the never-set attribute `normalize_non_buy`,
raising AttributeError at run time). -/
theorem mixture_batch_predict_code_bug (e : ℚ → ℚ) (utilities : List (List (List ℚ)))
    (avail : List (List ℚ)) (latentLogits : List ℚ) (normalizeExit : Bool)
    (hlen : utilities.length = latentLogits.length + 1)
    (hsum : ((1 : ℚ) :: latentLogits.map e).sum ≠ 0) :
    mixtureBatchPredictProbas e utilities avail latentLogits normalizeExit
      = utilities.map (fun u => matrixSoftmaxAvail e u avail normalizeExit) := by
  have hlpn : (latentProbabilitiesFromLogits e latentLogits).length
      = latentLogits.length + 1 := by
    simp [latentProbabilitiesFromLogits]
  have hul : utilities.length = (latentProbabilitiesFromLogits e latentLogits).length := by
    rw [hlpn, hlen]
  have hcons : latentProbabilitiesFromLogits e latentLogits
      = (1 / ((1 : ℚ) :: latentLogits.map e).sum)
        :: (latentLogits.map e).map (· / ((1 : ℚ) :: latentLogits.map e).sum) := rfl
  have hone : 1 / ((1 : ℚ) :: latentLogits.map e).sum
      + ((latentLogits.map e).map (· / ((1 : ℚ) :: latentLogits.map e).sum)).sum = 1 := by
    have := latentProbabilities_sum_one e latentLogits hsum
    rw [hcons] at this
    simpa using this
  simp only [mixtureBatchPredictProbas]
  have hmap := map_range_getD_comp (latentProbabilitiesFromLogits e latentLogits)
    (fun c => tensorScale c
      (utilities.map (fun u => matrixSoftmaxAvail e u avail normalizeExit)))
  rw [hul, hmap, hcons, tensorListSum_map_scale, hone, tensorScale_one]

/-- Witness-style evaluation of the buggy `batch_predict` at a concrete
failing input: two latent classes, one choice instance, two items, both
available, `latent_logits = [0]` — the returned value is the two-class
softmax stack (its outer length is the class count, not the batch
size). -/
theorem mixture_batch_predict_code_bug_witness :
    mixtureBatchPredictProbas (fun _ => (1 : ℚ)) [[[0, 0]], [[0, 0]]] [[1, 1]] [0] false
      = [[[(0 : ℚ), 0]], [[(0 : ℚ), 0]]].map
          (fun u => matrixSoftmaxAvail (fun _ => (1 : ℚ)) u [[1, 1]] false) :=
  mixture_batch_predict_code_bug (fun _ => (1 : ℚ)) [[[0, 0]], [[0, 0]]] [[1, 1]] [0]
    false (by decide) (by norm_num)

/-- C8 counterexample: the class-membership prior representation is not an
`n_latent_classes - 1` free-logit vector at every point of the model's
life. For a 2-class model whose E-step produced responsibilities
`[[1/2, 1/2]]`, the M-step prior update is the length-2 probability
vector `_maximization` returns, and `_em_fit` assigns it directly into
`self.latent_logits` — a vector of length 2, not of length
`n_latent_classes - 1 = 1`; feeding it back through `batch_predict`'s
anchored derivation then yields a length-3 "prior". -/
theorem em_mstep_prior_replaces_logits :
    (maximizationLatentProbas [[(1 : ℚ)/2, 1/2]]).length = 2
    ∧ (2 : Nat) ≠ 2 - 1
    ∧ (latentProbabilitiesFromLogits (fun _ => (1 : ℚ))
        (maximizationLatentProbas [[(1 : ℚ)/2, 1/2]])).length = 3 := by
  refine ⟨?_, by omega, ?_⟩
  · simp [maximizationLatentProbas, colSums]
  · simp [latentProbabilitiesFromLogits, maximizationLatentProbas, colSums]

/-- C8 amended: outside the EM path, `latent_logits` holds
`n_latent_classes - 1` free logits and the prior that `batch_predict`
derives from them — anchored at a fixed first-class weight `exp(0) = 1` —
is a vector of `n_latent_classes` probabilities that sums to 1 and is
strictly positive (for any positive exponential). The EM M-step breaks
this representation by overwriting `latent_logits` with the length-`n`
normalized responsibility-mass vector. -/
theorem latent_prior_anchored_softmax (e : ℚ → ℚ) (latentLogits : List ℚ)
    (hpos : ∀ x, 0 < e x) :
    (latentProbabilitiesFromLogits e latentLogits).length = latentLogits.length + 1
    ∧ (latentProbabilitiesFromLogits e latentLogits).sum = 1
    ∧ ∀ q ∈ latentProbabilitiesFromLogits e latentLogits, 0 < q := by
  have hmem : ∀ x ∈ (1 : ℚ) :: latentLogits.map e, 0 < x := by
    intro x hx
    rcases List.mem_cons.mp hx with rfl | hx2
    · norm_num
    · obtain ⟨l, -, rfl⟩ := List.mem_map.mp hx2
      exact hpos l
  have hsumpos : 0 < ((1 : ℚ) :: latentLogits.map e).sum := by
    have hrest : (0 : ℚ) ≤ (latentLogits.map e).sum :=
      List.sum_nonneg (fun x hx => le_of_lt (by
        obtain ⟨l, -, rfl⟩ := List.mem_map.mp hx
        exact hpos l))
    rw [List.sum_cons]
    linarith
  refine ⟨by simp [latentProbabilitiesFromLogits],
    latentProbabilities_sum_one e latentLogits (ne_of_gt hsumpos), ?_⟩
  intro q hq
  unfold latentProbabilitiesFromLogits at hq
  obtain ⟨x, hx, rfl⟩ := List.mem_map.mp hq
  exact div_pos (hmem x hx) hsumpos

/-- Witness for the amended C8 at a concrete positive exponential and one
free logit. -/
theorem latent_prior_anchored_softmax_witness :
    (latentProbabilitiesFromLogits (fun _ => (1 : ℚ)) [0]).length = 2
    ∧ (latentProbabilitiesFromLogits (fun _ => (1 : ℚ)) [0]).sum = 1
    ∧ ∀ q ∈ latentProbabilitiesFromLogits (fun _ => (1 : ℚ)) [0], 0 < q :=
  latent_prior_anchored_softmax (fun _ => (1 : ℚ)) [0] (fun _ => by norm_num)

/-- C6: evaluation of `_expectation` at a concrete first-EM-iteration
state refuting the claimed responsibility structure. With 2 latent
classes, `latent_logits = [1/2]` (the length-`n-1` free-logit vector the
first iteration starts from), one choice instance, and per-class
probabilities of the observed choice `3/5` (class 0) and `2/5` (class 1):
`zip` truncates to the single logit, so the responsibility matrix is
`[[1]]` — each row covers a single class (not the 2 classes, weighted by
`prior x P`, that the claim requires; the second model's `2/5` is ignored
entirely). -/
theorem em_expectation_code_bug (lg : ℚ → ℚ) :
    (emExpectation lg 1 [(1 : ℚ)/2] [[(3 : ℚ)/5], [(2 : ℚ)/5]]).1 = [[1]]
    ∧ (emExpectation lg 1 [(1 : ℚ)/2] [[(3 : ℚ)/5], [(2 : ℚ)/5]]).1.map List.length
        = [1] := by
  constructor
  · simp [emExpectation, emStack, emWeightedChosenProbas, List.range_succ]
    norm_num
  · simp [emExpectation, emStack, emWeightedChosenProbas, List.range_succ]

/-- C2: calling `BaseLatentClassModel.fit` with `fit_method` "EM"
(case-insensitive) never reaches the EM loop: `fit` invokes
`self._em_fit(dataset=..., sample_weight=..., verbose=...)` but
`_em_fit(self, dataset, verbose=0)` accepts no `sample_weight` keyword,
so Python raises TypeError before any initialization fit, E-step or
M-step runs. -/
theorem latent_fit_em_type_error (fitMethod optimizer : String)
    (h : pyLower fitMethod = "em") :
    latentClassFitDispatch fitMethod optimizer
      = Except.error "TypeError: _em_fit() got an unexpected keyword argument" := by
  rw [latentClassFitDispatch, h]
  rfl

/-- Witness for C2 at the concrete call `fit_method="EM"`,
`optimizer="adam"`. -/
theorem latent_fit_em_type_error_witness :
    latentClassFitDispatch "EM" "adam"
      = Except.error "TypeError: _em_fit() got an unexpected keyword argument" :=
  latent_fit_em_type_error "EM" "adam" (by decide)

lemma emFitLoop_nan_stop (m : Nat → List (Option ℚ)) (ls : Nat → ℚ) :
    ∀ (k fuel i : Nat) (s : EmState), k < fuel →
      (∀ j, j < k → hasNanVector (m (i + j)) = false) →
      hasNanVector (m (i + k)) = true →
      (emFitLoop m ls i fuel s).latentLogits = m (i + k)
      ∧ (emFitLoop m ls i fuel s).histLoss.length = s.histLoss.length + (k + 1) := by
  intro k
  induction k with
  | zero =>
    intro fuel i s hf hb hn
    cases fuel with
    | zero => omega
    | succ f =>
      rw [Nat.add_zero] at hn
      simp [emFitLoop, hn]
  | succ k ih =>
    intro fuel i s hf hb hn
    cases fuel with
    | zero => omega
    | succ f =>
      have h0 : hasNanVector (m i) = false := by
        have := hb 0 (Nat.succ_pos k)
        simpa using this
      have hb' : ∀ j, j < k → hasNanVector (m (i + 1 + j)) = false := by
        intro j hj
        have := hb (j + 1) (by omega)
        rwa [show i + (j + 1) = i + 1 + j by omega] at this
      have hn' : hasNanVector (m (i + 1 + k)) = true := by
        rwa [show i + (k + 1) = i + 1 + k by omega] at hn
      have hrec := ih f (i + 1)
        ⟨m i, s.histLogits ++ [m i], s.histLoss ++ [ls i]⟩ (by omega) hb' hn'
      simp only [emFitLoop, h0, Bool.false_eq_true, if_false]
      constructor
      · rw [hrec.1]
        congr 1
        omega
      · rw [hrec.2]
        simp only [List.length_append, List.length_cons, List.length_nil]
        omega

/-- C7 counterexample: when the M-step produces a NaN-containing prior on
the first EM iteration, `_em_fit` does stop, but the model is NOT left in
the last valid (pre-NaN) state: the corrupted prior has already been
assigned into `latent_logits` (and appended to the history) before the
NaN check runs, so the final `latent_logits` is the NaN vector, not the
valid `[some 0]` the loop started from. -/
theorem em_fit_retains_nan_prior :
    (emFit (fun _ => [none, some 1]) (fun _ => 0) 3
        ⟨[some 0], [], []⟩).latentLogits = [none, some 1]
    ∧ [(none : Option ℚ), some 1] ≠ [some 0]
    ∧ hasNanVector [(none : Option ℚ), some 1] = true := by
  refine ⟨?_, by decide, by decide⟩
  rfl

/-- C7 amended: a NaN in the updated class prior is detected in the same
EM iteration and terminates the loop early (the loss history stops at
`k + 1` entries), with the printed diagnostic — but the model retains the
corrupted values: `latent_logits` keeps the NaN-containing update rather
than the last valid pre-NaN state. -/
theorem em_fit_nan_early_stop (maximization : Nat → List (Option ℚ))
    (losses : Nat → ℚ) (epochs k : Nat) (s0 : EmState) (hk : k < epochs)
    (hs0 : s0.histLoss = [])
    (hbefore : ∀ j, j < k → hasNanVector (maximization j) = false)
    (hnan : hasNanVector (maximization k) = true) :
    (emFit maximization losses epochs s0).latentLogits = maximization k
    ∧ (emFit maximization losses epochs s0).histLoss.length = k + 1 := by
  have h := emFitLoop_nan_stop maximization losses k epochs 0 s0 hk
    (by simpa using hbefore) (by simpa using hnan)
  rw [hs0] at h
  simpa [emFit] using h

/-- Witness for the amended C7: NaN first appears in the prior computed
at EM iteration 1 of 3; the loop stops with two recorded losses and the
NaN prior retained. -/
theorem em_fit_nan_early_stop_witness :
    (emFit (fun n => if n = 1 then [(none : Option ℚ)] else [some 1]) (fun _ => 0) 3
        ⟨[some 0], [], []⟩).latentLogits = [(none : Option ℚ)]
    ∧ (emFit (fun n => if n = 1 then [(none : Option ℚ)] else [some 1]) (fun _ => 0) 3
        ⟨[some 0], [], []⟩).histLoss.length = 2 :=
  em_fit_nan_early_stop (fun n => if n = 1 then [(none : Option ℚ)] else [some 1])
    (fun _ => 0) 3 1 ⟨[some 0], [], []⟩ (by omega) rfl
    (fun j hj => by
      have hj0 : j = 0 := by omega
      subst hj0
      decide)
    (by decide)

lemma fitEpochLoop_stop_lemma {σ : Type} (stopFlag : σ → Bool) (body : Nat → σ → σ) :
    ∀ (k n e : Nat) (s : σ), k < n →
      (∀ j, j < k → stopFlag (applyEpochs body e s (j + 1)) = false) →
      stopFlag (applyEpochs body e s (k + 1)) = true →
      fitEpochLoop stopFlag body e n s = (applyEpochs body e s (k + 1), k + 1) := by
  intro k
  induction k with
  | zero =>
    intro n e s hn hb hs
    cases n with
    | zero => omega
    | succ m =>
      have h1 : applyEpochs body e s (0 + 1) = body e s := rfl
      rw [h1] at hs
      simp [fitEpochLoop, hs, h1]
  | succ k ih =>
    intro n e s hn hb hs
    cases n with
    | zero => omega
    | succ m =>
      have h0 : stopFlag (body e s) = false := hb 0 (Nat.succ_pos k)
      have hb' : ∀ j, j < k → stopFlag (applyEpochs body (e + 1) (body e s) (j + 1)) = false :=
        fun j hj => hb (j + 1) (by omega)
      have hs' : stopFlag (applyEpochs body (e + 1) (body e s) (k + 1)) = true := hs
      have hrec := ih m (e + 1) (body e s) (by omega) hb' hs'
      simp only [fitEpochLoop, h0, Bool.false_eq_true, if_false]
      rw [hrec]
      rfl

/-- C9: the `stop_training` flag is read once per epoch in
`ChoiceModel.fit`, after the epoch's batch loop, validation pass and
`on_epoch_end` callback have all run. If the flag first becomes set
during epoch `k` (possibly mid-epoch, inside the batch loop or the
validation pass), the loop still completes the whole body of epoch `k`
— the final state is exactly `k + 1` full epoch bodies — and exits
before epoch `k + 1` begins: exactly `k + 1` epochs complete. -/
theorem fit_stop_flag_between_epochs {σ : Type} (stopFlag : σ → Bool)
    (onEpochBegin batchLoop validationPass onEpochEnd : Nat → σ → σ)
    (epochs k : Nat) (s0 : σ) (hk : k < epochs)
    (hbefore : ∀ j, j < k → stopFlag (applyEpochs
        (epochBody onEpochBegin batchLoop validationPass onEpochEnd) 0 s0 (j + 1)) = false)
    (hstop : stopFlag (applyEpochs
        (epochBody onEpochBegin batchLoop validationPass onEpochEnd) 0 s0 (k + 1)) = true) :
    fitRun stopFlag onEpochBegin batchLoop validationPass onEpochEnd epochs s0
      = (applyEpochs (epochBody onEpochBegin batchLoop validationPass onEpochEnd)
          0 s0 (k + 1), k + 1) :=
  fitEpochLoop_stop_lemma stopFlag
    (epochBody onEpochBegin batchLoop validationPass onEpochEnd) k epochs 0 s0
    hk hbefore hstop

/-- Witness for C9: state is the stop flag itself; the batch loop of
epoch 1 (of 4) requests the stop; epochs 0 and 1 complete, epoch 2 never
starts. -/
theorem fit_stop_flag_between_epochs_witness :
    fitRun (fun s => s) (fun _ s => s) (fun e s => s || (e == 1)) (fun _ s => s)
        (fun _ s => s) 4 false
      = (applyEpochs (epochBody (fun _ s => s) (fun e s => s || (e == 1))
          (fun _ s => s) (fun _ s => s)) 0 false 2, 2) :=
  fit_stop_flag_between_epochs (fun s => s) (fun _ s => s) (fun e s => s || (e == 1))
    (fun _ s => s) (fun _ s => s) 4 1 false (by omega)
    (fun j hj => by
      have hj0 : j = 0 := by omega
      subst hj0
      decide)
    (by decide)

/-- C10: the inference operations `batch_predict`, `predict_probas` and
`evaluate` leave the model's parameter tensors and optimizer state
unchanged (their bodies contain no write to `self`, and the aggregators
thread the state through every batch untouched), while `train_step`'s
only write to parameter state is exactly the optimizer update
`apply_gradients` — new weights and slots are its two components. The
only other parameter writer, the L-BFGS adapter's
`assign_new_model_parameters`, is `assignNewModelParameters` of the
adapter section. -/
theorem inference_ops_preserve_state (e : ℚ → ℚ)
    (utilityFn : List (List ℚ) → ChoiceBatch → List (List ℚ))
    (ccLoss nllLoss : List (List ℚ) → List Nat → Option (List ℚ) → ℚ)
    (gradientFn : List (List ℚ) → ChoiceBatch → Option (List ℚ) → List (List ℚ))
    (applyGradients : List (List ℚ) → List (List ℚ) → List (List ℚ)
      → List (List ℚ) × List (List ℚ))
    (normalizeExit : Bool) (m : ModelState) (b : ChoiceBatch)
    (sampleWeight : Option (List ℚ)) (batches : List ChoiceBatch) (mode : String) :
    (batchPredict e utilityFn ccLoss nllLoss normalizeExit m b sampleWeight).1 = m
    ∧ (predictProbasRun e utilityFn ccLoss nllLoss normalizeExit m batches).1 = m
    ∧ (evaluateRun e utilityFn ccLoss nllLoss normalizeExit m batches
        sampleWeight mode).1 = m
    ∧ (trainStep e utilityFn ccLoss gradientFn applyGradients normalizeExit m b
        sampleWeight).1
        = ⟨(applyGradients m.optimizerSlots (gradientFn m.weights b sampleWeight)
              m.weights).2,
           (applyGradients m.optimizerSlots (gradientFn m.weights b sampleWeight)
              m.weights).1⟩ := by
  refine ⟨rfl, ?_, ?_, rfl⟩
  · have hfold : ∀ (bs : List ChoiceBatch) (acc : ModelState × List (List (List ℚ))),
        (bs.foldl (fun acc b =>
          let r := batchPredict e utilityFn ccLoss nllLoss normalizeExit acc.1 b none
          (r.1, acc.2 ++ [r.2.2.2])) acc).1 = acc.1 := by
      intro bs
      induction bs with
      | nil => intro acc; rfl
      | cons x xs ih => intro acc; exact ih _
    exact hfold batches (m, [])
  · have hfold : ∀ (bs : List ChoiceBatch) (acc : ModelState × List ℚ),
        (bs.foldl (fun acc b =>
          let r := batchPredict e utilityFn ccLoss nllLoss normalizeExit acc.1 b
            sampleWeight
          (r.1, acc.2 ++ [if mode = "eval" then r.2.2.1 else r.2.1])) acc).1 = acc.1 := by
      intro bs
      induction bs with
      | nil => intro acc; rfl
      | cons x xs ih => intro acc; exact ih _
    exact hfold batches (m, [])

